import Mathlib

/-!
Verification of the versioned project-file storage layer of qfieldcloud.

The development shallowly embeds the storage code:

* `qfieldcloud/core/utils_local.py` — the local-filesystem version store
  (`get_all_versions`, `get_latest_version`, `upload_fileobj`,
  `get_project_file_with_versions`, `delete_objects`);
* `qfieldcloud/core/utils2/storage.py` — purge and deletion-safety logic
  (`purge_old_file_versions`, `delete_project_file_version_permanently`,
  `delete_all_project_files_permanently`, `delete_stored_package`,
  `delete_project_file_permanently`);
* `qfieldcloud/core/utils.py` — `safe_join`, together with the pieces of
  CPython's `posixpath.join` / `posixpath.normpath` it relies on.

Machine integers do not occur (Python integers are unbounded); version ids and
timestamps are `Nat`.  Strings are Lean `String`s, manipulated through their
underlying character lists so that every definition evaluates by kernel
reduction.
-/

namespace QfcStorage

/-- Error outcomes of the storage layer.  Each constructor corresponds to one
`raise` site of the Python sources (`Exception` for a missing file,
`RuntimeError` for the deletion safety guards, `AssertionError` for the
internal-consistency asserts, the "Trying to delete latest version" guard in
`purge_old_file_versions`, the illegal-prefix guard of the low-level S3
helpers, and `ValueError` in `safe_join`). -/
inductive StorageError where
  | notFound
  | unsafeDeletion
  | suspiciousDeletion
  | assertionFailed
  | deleteLatestVersion
  | illegalTarget
  | pathEscape
  deriving Repr, DecidableEq

/-! ## Local version store (`utils_local.py`)

A logical file's container directory (`<key>.d`) holds one physical file per
version, named `"{version_id}_{basename}"`.  A directory is modelled as the
list of its entries, in creation order; `version_id` carries the integer that
`_get_version_id` parses back out of the leading digits of the name. -/

/-- One physical version file inside a logical file's `.d` container
directory: its file name and the version id `_get_version_id` parses from the
name (`int(name.split("_")[0])`). -/
structure StoredVersion where
  name : String
  version_id : Nat
  deriving Repr, DecidableEq

/-- The sort key of `utils_local.get_all_versions`:
`all_versions.sort(key = lambda f: int(f.name.split("_")[0]))`, i.e. ascending
parsed version id. -/
def vidLE (a b : StoredVersion) : Prop := a.version_id ≤ b.version_id

instance : DecidableRel vidLE := fun a b => Nat.decLe a.version_id b.version_id

instance : IsTotal StoredVersion vidLE := ⟨fun a b => Nat.le_total a.version_id b.version_id⟩

instance : IsTrans StoredVersion vidLE := ⟨fun _ _ _ hab hbc => Nat.le_trans hab hbc⟩

/-- `utils_local.get_all_versions`: all version files of a file directory,
sorted ascending by parsed version id. -/
def get_all_versions (file_dir : List StoredVersion) : List StoredVersion :=
  List.insertionSort vidLE file_dir

/-- `utils_local.get_latest_version`: `versions[-1] if versions else None`. -/
def get_latest_version (file_dir : List StoredVersion) : Option StoredVersion :=
  (get_all_versions file_dir).getLast?

/-- The version-id allocation of `utils_local.upload_fileobj`:
`1` when the directory holds no versions, otherwise
`_get_version_id(get_latest_version(dir_path)) + 1`. -/
def next_version_id (file_dir : List StoredVersion) : Nat :=
  match get_latest_version file_dir with
  | none => 1
  | some v => v.version_id + 1

/-- Split a character list on `'/'`, like Python's `str.split("/")`
(so `"".split("/") == [""]` and `"/".split("/") == ["", ""]`). -/
def splitSlash : List Char → List (List Char)
  | [] => [[]]
  | c :: cs =>
    let r := splitSlash cs
    if c = '/' then [] :: r
    else
      match r with
      | [] => [[c]]
      | g :: gs => (c :: g) :: gs

theorem orderedInsert_of_forall_not {α : Type} {r : α → α → Prop}
    [DecidableRel r] (a : α) :
    ∀ l : List α, (∀ b ∈ l, ¬ r a b) → List.orderedInsert r a l = l ++ [a]
  | [], _ => rfl
  | b :: l, h => by
    have hb : ¬ r a b := h b (List.mem_cons_self b l)
    simp only [List.orderedInsert, if_neg hb, List.cons_append, List.cons.injEq, true_and]
    exact orderedInsert_of_forall_not a l (fun c hc => h c (List.mem_cons_of_mem b hc))

theorem next_version_id_nil : next_version_id [] = 1 := rfl

/-- `os.path.exists` over the modelled projects directory: `p` exists when it
is a stored file's path or a (directory) prefix of one. -/
def pathExists (fs : List (List String)) (p : List String) : Bool :=
  fs.any (fun q => p.isPrefixOf q)

/-- `utils_local.delete_objects`: return unchanged when the key's path does
not exist; otherwise remove the file (`unlink`) or the whole subtree
(`shutil.rmtree`) — in both cases exactly the stored files whose path the key
is a prefix of.  No branch raises. -/
def delete_objects (fs : List (List String)) (key : List String) :
    Except StorageError (List (List String)) :=
  if pathExists fs key then .ok (fs.filter (fun q => ¬ key.isPrefixOf q))
  else .ok fs

/-- C10.  Deleting a key whose path does not exist in the projects directory
returns normally (no `NotFoundError`) and leaves every stored file
unchanged. -/
theorem delete_objects_missing_is_noop (fs : List (List String)) (key : List String)
    (h : pathExists fs key = false) :
    delete_objects fs key = .ok fs := by
  unfold delete_objects
  rw [h]
  simp

/-- Witness for C10: deleting a key outside the stored tree is a no-op. -/
theorem delete_objects_missing_is_noop_witness :
    delete_objects [["p1", "files", "a.qgs.d", "1_a.qgs"]] ["p2", "files"] =
      .ok [["p1", "files", "a.qgs.d", "1_a.qgs"]] :=
  delete_objects_missing_is_noop [["p1", "files", "a.qgs.d", "1_a.qgs"]]
    ["p2", "files"] (by decide)

/-! ## Key-shape validation (`utils2/storage.py`)

The deletion safety guards validate keys with `re.match` against anchored
patterns.  The patterns are deterministic (no backtracking is possible since
`\w` matches neither `-` nor `/`), so they are embedded as straight-line
matchers over the key's characters.  `\w` is modelled as ASCII alphanumeric
or underscore; `.` matches any character except a newline; a final `$`
matches at the end of the string or just before one trailing newline. -/

/-- A `\w` word character. -/
def isWordChar (c : Char) : Bool := c.isAlphanum || c == '_'

/-- Consume exactly `n` word characters. -/
def chompWord : Nat → List Char → Option (List Char)
  | 0, cs => some cs
  | _ + 1, [] => none
  | n + 1, c :: cs => if isWordChar c then chompWord n cs else none

/-- Consume one expected literal character. -/
def chompChar (x : Char) : List Char → Option (List Char)
  | [] => none
  | c :: cs => if c = x then some cs else none

/-- Consume an expected literal string. -/
def chompLit (lit cs : List Char) : Option (List Char) :=
  if lit.isPrefixOf cs then some (cs.drop lit.length) else none

/-- Consume `[\w]{8}(-[\w]{4}){3}-[\w]{12}` — a project-id (UUID) shape. -/
def chompUuid (cs : List Char) : Option (List Char) :=
  chompWord 8 cs >>= chompChar '-' >>= chompWord 4 >>= chompChar '-' >>=
    chompWord 4 >>= chompChar '-' >>= chompWord 4 >>= chompChar '-' >>= chompWord 12

/-- A final `$`: end of string, or one trailing newline. -/
def atEnd (cs : List Char) : Bool :=
  match cs with
  | [] => true
  | ['
'] => true
  | _ => false

/-- A final `.+$`: at least one character, none of them a newline, up to an
optional trailing newline. -/
def dotPlusEnd (cs : List Char) : Bool :=
  let cs' := if cs.getLast? = some '
' then cs.dropLast else cs
  !cs'.isEmpty && cs'.all (fun c => c != '
')

/-- `re.match(r"^projects/[\w]{8}(-[\w]{4}){3}-[\w]{12}/.+$", key)` — the
shape check applied to every single file-version key before deletion
(purge, single-file delete and single-version delete). -/
def matchProjectFileKey (key : String) : Bool :=
  match chompLit "projects/".data key.data >>= chompUuid >>= chompChar '/' with
  | none => false
  | some rest => dotPlusEnd rest

/-- `re.match(r"^projects/[\w]{8}(-[\w]{4}){3}-[\w]{12}/$", prefix)` — the
shape check of `delete_all_project_files_permanently`. -/
def matchProjectRootForm (s : String) : Bool :=
  match chompLit "projects/".data s.data >>= chompUuid >>= chompChar '/' with
  | none => false
  | some rest => atEnd rest

/-- `re.match(r"^projects/[\w]{8}(-[\w]{4}){3}-[\w]{12}/packages/\w+/$", prefix)`
— the shape check of `delete_stored_package`. -/
def matchPackageForm (s : String) : Bool :=
  match chompLit "projects/".data s.data >>= chompUuid >>=
      chompLit "/packages/".data with
  | none => false
  | some rest =>
    if (rest.takeWhile isWordChar).isEmpty then false
    else
      match chompChar '/' (rest.dropWhile isWordChar) with
      | none => false
      | some r3 => atEnd r3

/-! ## Object-storage listing consumed by `utils2/storage.py` -/

/-- One listed version of a stored object (`qfieldcloud.core.utils.S3ObjectVersion`):
its key, version id, upload timestamp and latest flag.  The spec's version
ids are positive integers assigned at write time, so the id is a `Nat`. -/
structure S3ObjectVersion where
  key : String
  version_id : Nat
  last_modified : Nat
  is_latest : Bool
  deriving Repr, DecidableEq

/-- A listed object together with all its versions
(`qfieldcloud.core.utils.S3ObjectWithVersions`). -/
structure S3ObjectWithVersions where
  latest : S3ObjectVersion
  versions : List S3ObjectVersion
  deriving Repr, DecidableEq

/-- Newest-first order on listed versions (descending version id). -/
def descById (a b : S3ObjectVersion) : Prop := b.version_id ≤ a.version_id

instance : DecidableRel descById := fun a b => Nat.decLe b.version_id a.version_id

instance : IsTotal S3ObjectVersion descById := ⟨fun a b => (Nat.le_total b.version_id a.version_id)⟩

instance : IsTrans S3ObjectVersion descById := ⟨fun _ _ _ hab hbc => Nat.le_trans hbc hab⟩

/-- Descending order by `last_modified`, the sort key of
`purge_old_file_versions` (`sorted(file.versions, key=lambda v:
v.last_modified, reverse=True)`). -/
def lmDesc (a b : S3ObjectVersion) : Prop := b.last_modified ≤ a.last_modified

instance : DecidableRel lmDesc := fun a b => Nat.decLe b.last_modified a.last_modified

instance : IsTotal S3ObjectVersion lmDesc := ⟨fun a b => (Nat.le_total b.last_modified a.last_modified)⟩

instance : IsTrans S3ObjectVersion lmDesc := ⟨fun _ _ _ hab hbc => Nat.le_trans hbc hab⟩

/-- Modelled from the spec: the object-storage listing
`qfieldcloud.core.utils.get_project_file_with_versions` that
`utils2/storage.py` consumes is not among the sources (only its callers
are).  Per the spec, a file's versions are walked newest-first (§4.6 step 3),
version ids strictly increase at write time, and `is_latest` marks the
version with the maximum remaining version id (§3).  Given the stored
versions of one file, the listing therefore reports them sorted descending
by version id, each flagged `is_latest` exactly on the maximal id, with the
newest one as `latest`; an empty version set means the file does not exist
(`none`). -/
def get_file_with_versions_spec (stored : List S3ObjectVersion) :
    Option S3ObjectWithVersions :=
  let sorted := List.insertionSort descById stored
  match sorted.head? with
  | none => none
  | some newest =>
    let flagged := sorted.map
      (fun v => { v with is_latest := v.version_id == newest.version_id })
    some ⟨{ newest with is_latest := true }, flagged⟩

/-- The maximum version id among a file's stored versions. -/
def maxVid (stored : List S3ObjectVersion) : Nat :=
  (stored.map S3ObjectVersion.version_id).foldr Nat.max 0

/-! ## Retention purge (`storage.purge_old_file_versions`) -/

/-- The inner deletion loop of `purge_old_file_versions`, run on the
versions selected for purging (`old_versions_to_purge`): abort with the
"Trying to delete latest version" guard when a selected version is flagged
latest, abort with the suspicious-deletion guard when its key is empty or
fails the shape check, otherwise delete it permanently and continue.
Returns the versions whose bytes were deleted (in deletion order) and the
error, if any, that stopped the loop. -/
def purgeLoop : List S3ObjectVersion → List S3ObjectVersion →
    List S3ObjectVersion × Option StorageError
  | [], deleted => (deleted, none)
  | v :: rest, deleted =>
    if v.is_latest then (deleted, some .deleteLatestVersion)
    else if v.key == "" || !matchProjectFileKey v.key then
      (deleted, some .suspiciousDeletion)
    else purgeLoop rest (deleted ++ [v])

/-- The per-file body of `purge_old_file_versions`: sort the file's versions
by `last_modified` descending, skip the newest `keep_count`, and delete the
rest through the guarded loop. -/
def purge_old_file_versions_file (keep_count : Nat) (file : S3ObjectWithVersions) :
    List S3ObjectVersion × Option StorageError :=
  let old_versions_to_purge := (List.insertionSort lmDesc file.versions).drop keep_count
  purgeLoop old_versions_to_purge []

/-! ## Single-version deletion (`storage.delete_project_file_version_permanently`) -/

/-- The collection loop of `delete_project_file_version_permanently`: walk
`file.versions`, collect the version matching `version_id` (stopping there
unless `include_older`), then keep collecting subsequent versions, asserting
that `include_older` holds and that each next version is strictly older than
the last collected one. -/
def collectVersions (version_id : Nat) (include_older : Bool) :
    List S3ObjectVersion → List S3ObjectVersion →
    Except StorageError (List S3ObjectVersion)
  | [], acc => .ok acc
  | v :: rest, acc =>
    if v.version_id == version_id then
      if include_older then collectVersions version_id include_older rest (acc ++ [v])
      else .ok (acc ++ [v])
    else if acc.isEmpty then collectVersions version_id include_older rest acc
    else if !include_older then .error .assertionFailed
    else if (acc.getLastD v).last_modified > v.last_modified then
      collectVersions version_id include_older rest (acc ++ [v])
    else .error .assertionFailed

/-- The deletion transaction of `delete_project_file_version_permanently`:
for each collected version, first re-check its key against the project-file
shape (and its id for truthiness), abort on mismatch, otherwise delete it
permanently.  Returns the versions actually deleted and the error, if any.
Versions deleted before an abort stay deleted (blob deletion is
irreversible). -/
def execVersionDeletions : List S3ObjectVersion → List S3ObjectVersion →
    List S3ObjectVersion × Option StorageError
  | [], deleted => (deleted, none)
  | v :: rest, deleted =>
    if !matchProjectFileKey v.key || v.version_id == 0 then
      (deleted, some .suspiciousDeletion)
    else execVersionDeletions rest (deleted ++ [v])

/-- `storage.delete_project_file_version_permanently`: fail when the file
does not exist; force `include_older := False` when the requested version is
the latest, and forbid deleting it when it is the only version; collect the
versions to delete, then run the guarded deletion transaction.  Returns the
versions whose bytes were deleted and the error, if any. -/
def delete_project_file_version_permanently
    (file? : Option S3ObjectWithVersions) (version_id : Nat) (include_older : Bool) :
    List S3ObjectVersion × Option StorageError :=
  match file? with
  | none => ([], some .notFound)
  | some file =>
    if file.latest.version_id == version_id then
      if file.versions.length == 1 then ([], some .unsafeDeletion)
      else
        match collectVersions version_id false file.versions [] with
        | .error e => ([], some e)
        | .ok versions_to_delete => execVersionDeletions versions_to_delete []
    else
      match collectVersions version_id include_older file.versions [] with
      | .error e => ([], some e)
      | .ok versions_to_delete => execVersionDeletions versions_to_delete []

/-! ## Prefix and whole-file deletions -/

/-- `storage._delete_by_prefix_versioned` / `_delete_by_prefix_permanently`:
refuse an empty or `"/"` prefix, otherwise remove every stored key starting
with the prefix.  The store is modelled as the list of its keys; S3
soft-delete markers are abstracted away (both helpers make the keys under
the prefix disappear from subsequent listings). -/
def delete_by_prefix_model (fs : List String) (pfx : String) :
    Except StorageError (List String) :=
  if pfx = "" ∨ pfx = "/" then .error .illegalTarget
  else .ok (fs.filter (fun k => ¬ pfx.data.isPrefixOf k.data))

/-- `storage.delete_all_project_files_permanently`: build the project
prefix, validate its shape, abort with the suspicious-deletion guard on
mismatch, otherwise delete by prefix.  Returns the surviving keys and the
error, if any. -/
def delete_all_project_files_permanently (fs : List String) (project_id : String) :
    List String × Option StorageError :=
  let pfx := "projects/" ++ project_id ++ "/"
  if !matchProjectRootForm pfx then (fs, some .suspiciousDeletion)
  else
    match delete_by_prefix_model fs pfx with
    | .error e => (fs, some e)
    | .ok fs' => (fs', none)

/-- `storage.delete_stored_package`: build the package prefix, validate its
shape, abort with the suspicious-deletion guard on mismatch, otherwise
delete by prefix. -/
def delete_stored_package (fs : List String) (project_id package_id : String) :
    List String × Option StorageError :=
  let pfx := "projects/" ++ project_id ++ "/packages/" ++ package_id ++ "/"
  if !matchPackageForm pfx then (fs, some .suspiciousDeletion)
  else
    match delete_by_prefix_model fs pfx with
    | .error e => (fs, some e)
    | .ok fs' => (fs', none)

/-- `storage._delete_by_key_permanently`: refuse an empty or `"/"` key;
keep only the listed object versions whose key equals the requested one,
assert at least one exists, and delete them all. -/
def delete_by_key_model (fs : List String) (key : String) :
    Except StorageError (List String) :=
  if key = "" ∨ key = "/" then .error .illegalTarget
  else if (fs.filter (fun k => k = key)).isEmpty then .error .assertionFailed
  else .ok (fs.filter (fun k => k ≠ key))

/-- `storage.delete_project_file_permanently`, reduced to its deletion
logic: fail when the file does not exist; validate the latest version's key
against the project-file shape before deleting all versions stored under
that key (the audit and project bookkeeping are database state, not stored
bytes, and are omitted). -/
def delete_project_file_permanently (fs : List String)
    (file? : Option S3ObjectWithVersions) : List String × Option StorageError :=
  match file? with
  | none => (fs, some .notFound)
  | some file =>
    if !matchProjectFileKey file.latest.key then (fs, some .suspiciousDeletion)
    else
      match delete_by_key_model fs file.latest.key with
      | .error e => (fs, some e)
      | .ok fs' => (fs', none)

/-! ## C4: deleting the sole remaining version is forbidden -/

/-- C4.  For a file with exactly one remaining version, requesting the
deletion of that version through the single-version deletion path always
fails with the `UnsafeDeletionError`-style guard (`RuntimeError` in the
source), and nothing is deleted — the version remains present. -/
theorem delete_sole_version_forbidden (v : S3ObjectVersion) (include_older : Bool) :
    delete_project_file_version_permanently (get_file_with_versions_spec [v])
      v.version_id include_older = ([], some .unsafeDeletion) := by
  simp [get_file_with_versions_spec, delete_project_file_version_permanently,
    List.insertionSort, List.orderedInsert]

/-! ## C9: purge never deletes the current latest version -/

theorem le_maxVid {v : S3ObjectVersion} :
    ∀ {stored : List S3ObjectVersion}, v ∈ stored → v.version_id ≤ maxVid stored := by
  intro stored
  induction stored with
  | nil => intro h; cases h
  | cons a t ih =>
    intro hv
    rcases List.mem_cons.mp hv with rfl | hv'
    · exact Nat.le_max_left _ _
    · exact Nat.le_trans (ih hv') (Nat.le_max_right _ _)

theorem maxVid_mem :
    ∀ {stored : List S3ObjectVersion}, stored ≠ [] →
      maxVid stored ∈ stored.map S3ObjectVersion.version_id := by
  intro stored
  induction stored with
  | nil => intro h; exact absurd rfl h
  | cons a t ih =>
    intro _
    cases t with
    | nil => simp [maxVid]
    | cons b t' =>
      have hmem := ih (by simp)
      show Nat.max a.version_id (maxVid (b :: t')) ∈ _
      rcases Nat.le_total a.version_id (maxVid (b :: t')) with h | h
      · have hmax : a.version_id.max (maxVid (b :: t')) = maxVid (b :: t') :=
          Nat.max_eq_right h
        rw [hmax]; exact List.mem_cons_of_mem _ hmem
      · have hmax : a.version_id.max (maxVid (b :: t')) = a.version_id :=
          Nat.max_eq_left h
        rw [hmax]; exact List.mem_cons_self _ _

theorem mem_vid_le_head_desc {l : List S3ObjectVersion} (hs : l.Sorted descById)
    {v y : S3ObjectVersion} (hv : v ∈ l) (hy : l.head? = some y) :
    v.version_id ≤ y.version_id := by
  cases l with
  | nil => cases hv
  | cons a t =>
    simp only [List.head?_cons, Option.some.injEq] at hy
    subst hy
    rcases List.mem_cons.mp hv with rfl | hv'
    · exact Nat.le_refl _
    · exact (List.rel_of_sorted_cons hs) v hv'

/-- The head of the newest-first sort carries the maximum version id. -/
theorem descSort_head_maxVid {stored : List S3ObjectVersion} {newest : S3ObjectVersion}
    (hh : (List.insertionSort descById stored).head? = some newest) :
    newest.version_id = maxVid stored := by
  have hperm : List.Perm (List.insertionSort descById stored) stored :=
    List.perm_insertionSort descById stored
  have hsorted : (List.insertionSort descById stored).Sorted descById :=
    List.sorted_insertionSort descById stored
  have hne : stored ≠ [] := by
    intro hnil
    subst hnil
    have : List.insertionSort descById ([] : List S3ObjectVersion) = [] := rfl
    rw [this] at hh
    cases hh
  refine Nat.le_antisymm ?_ ?_
  · have hmem : newest ∈ stored := by
      have := List.mem_of_mem_head? (by rw [hh]; exact rfl)
      exact hperm.mem_iff.mp this
    exact le_maxVid hmem
  · obtain ⟨w, hw, hwid⟩ := List.mem_map.mp (maxVid_mem hne)
    have hw' : w ∈ List.insertionSort descById stored := hperm.mem_iff.mpr hw
    exact hwid ▸ mem_vid_le_head_desc hsorted hw' hh

/-- Versions deleted by the purge loop come from its input list and are all
flagged not-latest (the guard aborts before deleting a latest-flagged
version). -/
theorem purgeLoop_deleted_mem :
    ∀ (l acc : List S3ObjectVersion) (v : S3ObjectVersion),
      v ∈ (purgeLoop l acc).1 → v ∈ acc ∨ (v ∈ l ∧ v.is_latest = false)
  | [], acc, v => by
    intro hv
    exact Or.inl hv
  | w :: rest, acc, v => by
    intro hv
    by_cases hl : w.is_latest
    · rw [purgeLoop, if_pos hl] at hv
      exact Or.inl hv
    · by_cases hk : (w.key == "" || !matchProjectFileKey w.key) = true
      · rw [purgeLoop, if_neg hl, if_pos hk] at hv
        exact Or.inl hv
      · rw [purgeLoop, if_neg hl, if_neg hk] at hv
        rcases purgeLoop_deleted_mem rest (acc ++ [w]) v hv with hacc | ⟨hmem, hflag⟩
        · rcases List.mem_append.mp hacc with h | h
          · exact Or.inl h
          · have : v = w := by simpa using h
            subst this
            exact Or.inr ⟨List.mem_cons_self _ _, Bool.eq_false_iff.mpr hl⟩
        · exact Or.inr ⟨List.mem_cons_of_mem _ hmem, hflag⟩

/-- C9.  A version deleted by the purge never carries the maximum remaining
version id: the guard aborts with a fatal error when it reaches a version
flagged latest, before that version's bytes are deleted. -/
theorem purge_never_deletes_latest (stored : List S3ObjectVersion) (keep_count : Nat)
    (v : S3ObjectVersion) (file : S3ObjectWithVersions)
    (hfile : get_file_with_versions_spec stored = some file)
    (hv : v ∈ (purge_old_file_versions_file keep_count file).1) :
    v.version_id ≠ maxVid stored := by
  simp only [get_file_with_versions_spec] at hfile
  cases hh : (List.insertionSort descById stored).head? with
  | none => rw [hh] at hfile; cases hfile
  | some newest =>
    rw [hh] at hfile
    simp only [Option.some.injEq] at hfile
    subst hfile
    rcases purgeLoop_deleted_mem _ [] v hv with h | ⟨hmem, hflag⟩
    · cases h
    · have hv2 : v ∈ (List.insertionSort descById stored).map
          (fun w => { w with is_latest := w.version_id == newest.version_id }) := by
        have hsub : v ∈ List.insertionSort lmDesc ((List.insertionSort descById stored).map
            (fun w => { w with is_latest := w.version_id == newest.version_id })) :=
          List.mem_of_mem_drop hmem
        exact (List.perm_insertionSort lmDesc _).mem_iff.mp hsub
      obtain ⟨s, _, rfl⟩ := List.mem_map.mp hv2
      have hne : (s.version_id == newest.version_id) = false := hflag
      have := ne_of_beq_false hne
      rw [descSort_head_maxVid hh] at this
      exact this

/-- Witness for C9: on a two-version file with valid keys and
`keep_count = 1`, the purged version is not the latest one. -/
theorem purge_never_deletes_latest_witness :
    (⟨"projects/abcd1234-ab12-cd34-ef56-abcdef123456/files/a.qgs", 1, 10, false⟩ :
        S3ObjectVersion).version_id ≠
      maxVid [⟨"projects/abcd1234-ab12-cd34-ef56-abcdef123456/files/a.qgs", 1, 10, false⟩,
        ⟨"projects/abcd1234-ab12-cd34-ef56-abcdef123456/files/a.qgs", 2, 20, false⟩] :=
  purge_never_deletes_latest
    [⟨"projects/abcd1234-ab12-cd34-ef56-abcdef123456/files/a.qgs", 1, 10, false⟩,
      ⟨"projects/abcd1234-ab12-cd34-ef56-abcdef123456/files/a.qgs", 2, 20, false⟩]
    1 _ _ rfl (by decide)

/-! ## C2: retention purge -/

theorem insertionSort_eq_reverse {α : Type} {r : α → α → Prop} [DecidableRel r] :
    ∀ l : List α, l.Pairwise (fun a b => ¬ r a b) → List.insertionSort r l = l.reverse
  | [], _ => rfl
  | a :: t, h => by
    have ht : t.Pairwise (fun a b => ¬ r a b) := h.of_cons
    show List.orderedInsert r a (List.insertionSort r t) = (a :: t).reverse
    rw [insertionSort_eq_reverse t ht, List.reverse_cons]
    refine orderedInsert_of_forall_not a t.reverse ?_
    intro b hb
    exact List.rel_of_pairwise_cons h (List.mem_reverse.mp hb)

/-- When no selected version is flagged latest and every key passes the
shape check, the purge loop deletes all of them and reports no error. -/
theorem purgeLoop_all_ok :
    ∀ (l acc : List S3ObjectVersion),
      (∀ v ∈ l, v.is_latest = false ∧ (v.key == "") = false ∧
        matchProjectFileKey v.key = true) →
      purgeLoop l acc = (acc ++ l, none)
  | [], acc, _ => by simp [purgeLoop]
  | w :: rest, acc, h => by
    obtain ⟨hl, hk1, hk2⟩ := h w (List.mem_cons_self _ _)
    rw [purgeLoop, if_neg (by simp [hl]), if_neg (by simp [hk1, hk2])]
    rw [purgeLoop_all_ok rest (acc ++ [w]) (fun v hv => h v (List.mem_cons_of_mem _ hv))]
    simp

/-- C2 counterexample: with `keep_count = 0` the claim requires the single
version of a one-version file (`V = 1 > 0`) to be deleted, but the purge
selects the latest version and aborts with the "Trying to delete latest
version" guard, deleting nothing. -/
theorem purge_keep0_counterexample :
    get_file_with_versions_spec
        [⟨"projects/abcd1234-ab12-cd34-ef56-abcdef123456/files/a.qgs", 1, 100, false⟩] =
      some ⟨⟨"projects/abcd1234-ab12-cd34-ef56-abcdef123456/files/a.qgs", 1, 100, true⟩,
        [⟨"projects/abcd1234-ab12-cd34-ef56-abcdef123456/files/a.qgs", 1, 100, true⟩]⟩ ∧
    purge_old_file_versions_file 0
        ⟨⟨"projects/abcd1234-ab12-cd34-ef56-abcdef123456/files/a.qgs", 1, 100, true⟩,
          [⟨"projects/abcd1234-ab12-cd34-ef56-abcdef123456/files/a.qgs", 1, 100, true⟩]⟩ =
      ([], some .deleteLatestVersion) := by
  constructor
  · decide
  · decide

/-- Flagging of a listed version against the maximal version id, as
performed by the spec-modelled listing. -/
def flagWith (m : Nat) (v : S3ObjectVersion) : S3ObjectVersion :=
  { v with is_latest := v.version_id == m }

/-- C2 amended.  For `keep_count ≥ 1` and a file whose stored versions have
both ids and timestamps strictly increasing in creation order (the normal
write pattern: ids and timestamps are assigned at write time) and valid
keys, the purge of a file with `V > keep_count` versions succeeds, deletes
exactly the `V - keep_count` versions with the oldest `last_modified`
(newest-first deletion order), and leaves exactly the `keep_count` most
recent ones. -/
theorem purge_keeps_newest (stored : List S3ObjectVersion) (keep_count : Nat)
    (hasc_id : stored.Pairwise (fun a b => a.version_id < b.version_id))
    (hasc_lm : stored.Pairwise (fun a b => a.last_modified < b.last_modified))
    (hkeys : ∀ v ∈ stored, (v.key == "") = false ∧ matchProjectFileKey v.key = true)
    (hK : 1 ≤ keep_count) (hV : keep_count < stored.length) :
    ∃ file, get_file_with_versions_spec stored = some file ∧
      (purge_old_file_versions_file keep_count file).2 = none ∧
      (purge_old_file_versions_file keep_count file).1.map S3ObjectVersion.version_id =
        ((stored.map S3ObjectVersion.version_id).take (stored.length - keep_count)).reverse ∧
      stored.filter (fun v => decide (v.version_id ∉
          (purge_old_file_versions_file keep_count file).1.map S3ObjectVersion.version_id)) =
        stored.drop (stored.length - keep_count) := by
  have hne : stored ≠ [] := by
    intro h
    subst h
    simp at hV
  have hnotr : stored.Pairwise (fun a b => ¬ descById a b) := by
    refine hasc_id.imp ?_
    intro a b h hc
    have h2 : b.version_id ≤ a.version_id := hc
    omega
  have hsortdesc : List.insertionSort descById stored = stored.reverse :=
    insertionSort_eq_reverse stored hnotr
  have hhead : (List.insertionSort descById stored).head? = some (stored.getLast hne) := by
    rw [hsortdesc, List.head?_reverse]
    exact List.getLast?_eq_getLast _ hne
  have hnewvid : (stored.getLast hne).version_id = maxVid stored :=
    descSort_head_maxVid hhead
  have hfile : get_file_with_versions_spec stored =
      some ⟨{ stored.getLast hne with is_latest := true },
        stored.reverse.map (flagWith (stored.getLast hne).version_id)⟩ := by
    simp only [get_file_with_versions_spec]
    rw [hhead, hsortdesc]
    rfl
  have hAB : stored.take (stored.length - keep_count) ++
      stored.drop (stored.length - keep_count) = stored := List.take_append_drop _ _
  have hBne : stored.drop (stored.length - keep_count) ≠ [] := by
    have hlen : (stored.drop (stored.length - keep_count)).length = keep_count := by
      rw [List.length_drop]
      omega
    intro h
    rw [h] at hlen
    simp at hlen
    omega
  have hPW : (stored.take (stored.length - keep_count) ++
      stored.drop (stored.length - keep_count)).Pairwise
      (fun a b => a.version_id < b.version_id) := by
    rw [hAB]
    exact hasc_id
  have hcross : ∀ a ∈ stored.take (stored.length - keep_count),
      ∀ b ∈ stored.drop (stored.length - keep_count), a.version_id < b.version_id :=
    (List.pairwise_append.mp hPW).2.2
  have hAlt : ∀ a ∈ stored.take (stored.length - keep_count),
      a.version_id < (stored.getLast hne).version_id := by
    intro a ha
    rw [hnewvid]
    obtain ⟨w, hw, hwid⟩ := List.mem_map.mp (maxVid_mem hne)
    obtain ⟨b0, hb0⟩ := List.exists_mem_of_ne_nil _ hBne
    have hwAB : w ∈ stored.take (stored.length - keep_count) ++
        stored.drop (stored.length - keep_count) := by
      rw [hAB]; exact hw
    have hb0max : b0.version_id ≤ maxVid stored :=
      le_maxVid (by rw [← hAB]; exact List.mem_append_right _ hb0)
    rcases List.mem_append.mp hwAB with hwA | hwB
    · have h1 := hcross w hwA b0 hb0
      omega
    · have h2 := hcross a ha w hwB
      omega
  have hlmflag : (stored.reverse.map (flagWith (stored.getLast hne).version_id)).Sorted
      lmDesc := by
    rw [List.Sorted, List.pairwise_map, List.pairwise_reverse]
    refine hasc_lm.imp ?_
    intro a b h
    show a.last_modified ≤ b.last_modified
    omega
  have hpurge_input : List.insertionSort lmDesc
      (stored.reverse.map (flagWith (stored.getLast hne).version_id)) =
      stored.reverse.map (flagWith (stored.getLast hne).version_id) :=
    hlmflag.insertionSort_eq
  have hdrop : (stored.reverse.map (flagWith (stored.getLast hne).version_id)).drop
      keep_count = ((stored.take (stored.length - keep_count)).reverse).map
      (flagWith (stored.getLast hne).version_id) := by
    rw [← List.map_drop, List.drop_reverse]
  have hkeysA : ∀ v ∈ ((stored.take (stored.length - keep_count)).reverse).map
      (flagWith (stored.getLast hne).version_id),
      v.is_latest = false ∧ (v.key == "") = false ∧ matchProjectFileKey v.key = true := by
    intro v hv
    obtain ⟨a, ha, rfl⟩ := List.mem_map.mp hv
    have haA : a ∈ stored.take (stored.length - keep_count) := List.mem_reverse.mp ha
    have haS : a ∈ stored := by rw [← hAB]; exact List.mem_append_left _ haA
    exact ⟨beq_eq_false_iff_ne.mpr (Nat.ne_of_lt (hAlt a haA)),
      (hkeys a haS).1, (hkeys a haS).2⟩
  have hrun : purge_old_file_versions_file keep_count
      ⟨{ stored.getLast hne with is_latest := true },
        stored.reverse.map (flagWith (stored.getLast hne).version_id)⟩ =
      (((stored.take (stored.length - keep_count)).reverse).map
        (flagWith (stored.getLast hne).version_id), none) := by
    show purgeLoop ((List.insertionSort lmDesc
      (stored.reverse.map (flagWith (stored.getLast hne).version_id))).drop keep_count)
      [] = _
    rw [hpurge_input, hdrop, purgeLoop_all_ok _ [] hkeysA]
    simp
  have hfun : (S3ObjectVersion.version_id ∘ flagWith (stored.getLast hne).version_id) =
      S3ObjectVersion.version_id :=
    funext (fun _ => rfl)
  have hids : (((stored.take (stored.length - keep_count)).reverse).map
      (flagWith (stored.getLast hne).version_id)).map S3ObjectVersion.version_id =
      ((stored.map S3ObjectVersion.version_id).take (stored.length - keep_count)).reverse := by
    rw [List.map_map, hfun, List.map_reverse, List.map_take]
  refine ⟨_, hfile, ?_, ?_, ?_⟩
  · rw [hrun]
  · rw [hrun]
    exact hids
  · rw [hrun]
    show stored.filter _ = _
    rw [hids, ← List.map_take]
    have hgen : ∀ A B : List S3ObjectVersion,
        A ++ B = stored →
        (∀ a ∈ A, ∀ b ∈ B, a.version_id < b.version_id) →
        stored.filter (fun v => decide (v.version_id ∉
          (A.map S3ObjectVersion.version_id).reverse)) = B := by
      intro A B hABeq hc
      rw [← hABeq, List.filter_append]
      have h1 : A.filter (fun v => decide (v.version_id ∉
          (A.map S3ObjectVersion.version_id).reverse)) = [] := by
        refine List.filter_eq_nil_iff.mpr ?_
        intro a ha
        simp only [decide_eq_true_eq, List.mem_reverse]
        intro hcon
        exact hcon (List.mem_map_of_mem _ ha)
      have h2 : B.filter (fun v => decide (v.version_id ∉
          (A.map S3ObjectVersion.version_id).reverse)) = B := by
        refine List.filter_eq_self.mpr ?_
        intro b hb
        simp only [decide_eq_true_eq, List.mem_reverse]
        intro hcon
        obtain ⟨a, haA, heq⟩ := List.mem_map.mp hcon
        have := hc a haA b hb
        omega
      rw [h1, h2, List.nil_append]
    have hres := hgen (stored.take (stored.length - keep_count))
      (stored.drop (stored.length - keep_count)) hAB hcross
    rw [hres]

/-- Concrete three-version file used by the C2 witness. -/
def c2stored : List S3ObjectVersion :=
  [⟨"projects/abcd1234-ab12-cd34-ef56-abcdef123456/files/a.qgs", 1, 10, false⟩,
   ⟨"projects/abcd1234-ab12-cd34-ef56-abcdef123456/files/a.qgs", 2, 20, false⟩,
   ⟨"projects/abcd1234-ab12-cd34-ef56-abcdef123456/files/a.qgs", 3, 30, false⟩]

/-- Witness for the amended C2: three versions, `keep_count = 1`. -/
theorem purge_keeps_newest_witness :
    ∃ file, get_file_with_versions_spec c2stored = some file ∧
      (purge_old_file_versions_file 1 file).2 = none ∧
      (purge_old_file_versions_file 1 file).1.map S3ObjectVersion.version_id =
        ((c2stored.map S3ObjectVersion.version_id).take (c2stored.length - 1)).reverse ∧
      c2stored.filter (fun v => decide (v.version_id ∉
          (purge_old_file_versions_file 1 file).1.map S3ObjectVersion.version_id)) =
        c2stored.drop (c2stored.length - 1) :=
  purge_keeps_newest c2stored 1 (by decide) (by decide) (by decide) (by decide) (by decide)

/-! ## C5: include-older deletion walks versions newest-first -/

/-- Versions collected by a successful collection walk form a strictly
older-than chain: each collected version is strictly older than the one
collected before it (the asserts abort the walk otherwise). -/
theorem collectVersions_ok_chain (version_id : Nat) (include_older : Bool) :
    ∀ (l acc out : List S3ObjectVersion),
      acc.Chain' (fun a b => b.last_modified < a.last_modified) →
      (acc ≠ [] → ∀ w ∈ l, w.version_id ≠ version_id) →
      l.countP (fun v => v.version_id == version_id) ≤ 1 →
      collectVersions version_id include_older l acc = .ok out →
      out.Chain' (fun a b => b.last_modified < a.last_modified)
  | [], acc, out, hchain, _, _, hok => by
    rw [collectVersions] at hok
    cases hok
    exact hchain
  | v :: rest, acc, out, hchain, hinv, hcount, hok => by
    by_cases htgt : (v.version_id == version_id) = true
    · have hvid : v.version_id = version_id := by simpa using htgt
      have haccnil : acc = [] := by
        by_contra hacc
        exact hinv hacc v (List.mem_cons_self _ _) hvid
      subst haccnil
      have hrest : ∀ w ∈ rest, w.version_id ≠ version_id := by
        intro w hw hweq
        have : 2 ≤ (v :: rest).countP (fun u => u.version_id == version_id) := by
          rw [List.countP_cons, if_pos (by simpa using htgt)]
          have : 1 ≤ rest.countP (fun u => u.version_id == version_id) := by
            have hpos : 0 < rest.countP (fun u => u.version_id == version_id) :=
              List.countP_pos_iff.mpr ⟨w, hw, by simpa using hweq⟩
            omega
          omega
        omega
      rw [collectVersions, if_pos htgt] at hok
      by_cases hio : include_older
      · rw [if_pos hio] at hok
        refine collectVersions_ok_chain version_id include_older rest ([] ++ [v]) out
          ?_ ?_ ?_ hok
        · simp
        · intro _ w hw
          exact hrest w hw
        · have h0 : rest.countP (fun u => u.version_id == version_id) = 0 := by
            by_contra hpos
            obtain ⟨w, hw, hweq⟩ := List.countP_pos_iff.mp (Nat.pos_of_ne_zero hpos)
            exact hrest w hw (by simpa using hweq)
          omega
      · rw [if_neg hio] at hok
        cases hok
        simp
    · rw [collectVersions, if_neg htgt] at hok
      by_cases hempty : acc.isEmpty = true
      · rw [if_pos hempty] at hok
        have haccnil : acc = [] := by simpa [List.isEmpty_iff] using hempty
        subst haccnil
        refine collectVersions_ok_chain version_id include_older rest [] out
          hchain (by intro h; exact absurd rfl h) ?_ hok
        have := hcount
        rw [List.countP_cons] at this
        omega
      · rw [if_neg hempty] at hok
        have haccne : acc ≠ [] := by simpa [List.isEmpty_iff] using hempty
        by_cases hio2 : (!include_older) = true
        · rw [if_pos hio2] at hok
          cases hok
        · rw [if_neg hio2] at hok
          by_cases hlm : (acc.getLastD v).last_modified > v.last_modified
          · rw [if_pos hlm] at hok
            refine collectVersions_ok_chain version_id include_older rest (acc ++ [v]) out
              ?_ ?_ ?_ hok
            · rw [List.chain'_append]
              refine ⟨hchain, List.chain'_singleton v, ?_⟩
              intro x hx y hy
              have hyv : v = y := by simpa using hy
              have hlast : acc.getLast? = some x := by simpa using hx
              have hgl : acc.getLastD v = x := by
                rw [List.getLastD_eq_getLast?, hlast]
                rfl
              show y.last_modified < x.last_modified
              rw [← hyv, ← hgl]
              exact hlm
            · intro _ w hw
              exact hinv haccne w (List.mem_cons_of_mem _ hw)
            · rw [List.countP_cons] at hcount
              omega
          · rw [if_neg hlm] at hok
            cases hok

/-- Concrete three-version file (ascending ids 1, 2, 3) used for the C5
deletion scenario. -/
def c5stored : List S3ObjectVersion :=
  [⟨"projects/abcd1234-ab12-cd34-ef56-abcdef123456/files/r.qgs", 1, 10, false⟩,
   ⟨"projects/abcd1234-ab12-cd34-ef56-abcdef123456/files/r.qgs", 2, 20, false⟩,
   ⟨"projects/abcd1234-ab12-cd34-ef56-abcdef123456/files/r.qgs", 3, 30, false⟩]

/-- C5.  The include-older walk collects the target version and then only
strictly older versions (each collected version strictly older than the one
before; any violation aborts as a fatal internal-consistency error before
anything is deleted); in particular, deleting `version_id = 2` with
`include_older = True` from a file with versions `[1, 2, 3]` deletes exactly
versions 2 and 1 (newest-first), reports no error, and leaves version 3 as
the latest. -/
theorem delete_version_include_older :
    (∀ (file : S3ObjectWithVersions) (version_id : Nat) (include_older : Bool)
        (out : List S3ObjectVersion),
      file.versions.countP (fun v => v.version_id == version_id) ≤ 1 →
      collectVersions version_id include_older file.versions [] = .ok out →
      out.Chain' (fun a b => b.last_modified < a.last_modified)) ∧
    (delete_project_file_version_permanently (get_file_with_versions_spec c5stored)
        2 true).1.map S3ObjectVersion.version_id = [2, 1] ∧
    (delete_project_file_version_permanently (get_file_with_versions_spec c5stored)
        2 true).2 = none ∧
    Option.map (fun f => f.latest.version_id)
      (get_file_with_versions_spec (c5stored.filter (fun v => decide (v.version_id ∉
        (delete_project_file_version_permanently (get_file_with_versions_spec c5stored)
          2 true).1.map S3ObjectVersion.version_id)))) = some 3 := by
  refine ⟨?_, by decide, by decide, by decide⟩
  intro file version_id include_older out hcount hok
  exact collectVersions_ok_chain version_id include_older file.versions [] out
    List.chain'_nil (by intro h; exact absurd rfl h) hcount hok

/-- Witness for C5's general conjunct at the concrete scenario file: the
two collected versions form a strictly-older chain. -/
theorem delete_version_include_older_witness :
    ([⟨"projects/abcd1234-ab12-cd34-ef56-abcdef123456/files/r.qgs", 2, 20, false⟩,
      ⟨"projects/abcd1234-ab12-cd34-ef56-abcdef123456/files/r.qgs", 1, 10, false⟩] :
      List S3ObjectVersion).Chain' (fun a b => b.last_modified < a.last_modified) :=
  delete_version_include_older.1
    ⟨⟨"projects/abcd1234-ab12-cd34-ef56-abcdef123456/files/r.qgs", 3, 30, true⟩,
      [⟨"projects/abcd1234-ab12-cd34-ef56-abcdef123456/files/r.qgs", 3, 30, true⟩,
       ⟨"projects/abcd1234-ab12-cd34-ef56-abcdef123456/files/r.qgs", 2, 20, false⟩,
       ⟨"projects/abcd1234-ab12-cd34-ef56-abcdef123456/files/r.qgs", 1, 10, false⟩]⟩
    2 true
    [⟨"projects/abcd1234-ab12-cd34-ef56-abcdef123456/files/r.qgs", 2, 20, false⟩,
     ⟨"projects/abcd1234-ab12-cd34-ef56-abcdef123456/files/r.qgs", 1, 10, false⟩]
    (by decide) rfl

/-! ## C8: shape validation before destructive deletions -/

/-- C8 counterexample: in a multi-version deletion, a key-shape mismatch on
a later version aborts only after the earlier collected versions were
already deleted — the operation does not abort "without deleting anything".
Here version 2 (valid key) is deleted before the walk reaches version 1
(malformed key) and aborts. -/
theorem deletion_guard_counterexample :
    (delete_project_file_version_permanently
      (get_file_with_versions_spec
        [⟨"trash/evil", 1, 10, false⟩,
         ⟨"projects/abcd1234-ab12-cd34-ef56-abcdef123456/files/a.qgs", 2, 20, false⟩,
         ⟨"projects/abcd1234-ab12-cd34-ef56-abcdef123456/files/a.qgs", 3, 30, false⟩])
      2 true).1.map S3ObjectVersion.version_id = [2] ∧
    (delete_project_file_version_permanently
      (get_file_with_versions_spec
        [⟨"trash/evil", 1, 10, false⟩,
         ⟨"projects/abcd1234-ab12-cd34-ef56-abcdef123456/files/a.qgs", 2, 20, false⟩,
         ⟨"projects/abcd1234-ab12-cd34-ef56-abcdef123456/files/a.qgs", 3, 30, false⟩])
      2 true).2 = some .suspiciousDeletion := by
  constructor
  · decide
  · decide

/-- Every version actually deleted by the deletion transaction passed the
key-shape re-check (its own check runs before its deletion). -/
theorem execVersionDeletions_deleted_ok :
    ∀ (l acc : List S3ObjectVersion),
      (∀ v ∈ acc, matchProjectFileKey v.key = true ∧ v.version_id ≠ 0) →
      ∀ v ∈ (execVersionDeletions l acc).1,
        matchProjectFileKey v.key = true ∧ v.version_id ≠ 0
  | [], acc, hacc => hacc
  | w :: rest, acc, hacc => by
    by_cases hc : (!matchProjectFileKey w.key || w.version_id == 0) = true
    · rw [execVersionDeletions, if_pos hc]
      exact hacc
    · rw [execVersionDeletions, if_neg hc]
      refine execVersionDeletions_deleted_ok rest (acc ++ [w]) ?_
      intro v hv
      rcases List.mem_append.mp hv with h | h
      · exact hacc v h
      · have hvw : v = w := by simpa using h
        subst hvw
        simp only [Bool.or_eq_true, Bool.not_eq_true', beq_iff_eq] at hc
        push_neg at hc
        exact ⟨Bool.ne_false_iff.mp hc.1, hc.2⟩

/-- Every version actually deleted by the purge loop passed the key
re-check. -/
theorem purgeLoop_deleted_keys_ok :
    ∀ (l acc : List S3ObjectVersion),
      (∀ v ∈ acc, (v.key == "") = false ∧ matchProjectFileKey v.key = true) →
      ∀ v ∈ (purgeLoop l acc).1,
        (v.key == "") = false ∧ matchProjectFileKey v.key = true
  | [], acc, hacc => hacc
  | w :: rest, acc, hacc => by
    by_cases hl : w.is_latest
    · rw [purgeLoop, if_pos hl]
      exact hacc
    · by_cases hc : (w.key == "" || !matchProjectFileKey w.key) = true
      · rw [purgeLoop, if_neg hl, if_pos hc]
        exact hacc
      · rw [purgeLoop, if_neg hl, if_neg hc]
        refine purgeLoop_deleted_keys_ok rest (acc ++ [w]) ?_
        intro v hv
        rcases List.mem_append.mp hv with h | h
        · exact hacc v h
        · have hvw : v = w := by simpa using h
          subst hvw
          simp only [Bool.or_eq_true, Bool.not_eq_true'] at hc
          push_neg at hc
          exact ⟨Bool.eq_false_iff.mpr hc.1, Bool.ne_false_iff.mp hc.2⟩

/-- C8 amended.  Every destructive deletion validates its concrete target
key or prefix against the scope-specific shape pattern before deleting that
target: a mismatching whole-project prefix, package prefix or file key
aborts with the fatal safety error and deletes nothing, and in the
multi-version operations (single-version delete, purge) every version whose
bytes are deleted had passed its own shape re-check — versions deleted
before a later mismatch, however, stay deleted. -/
theorem deletion_shape_guards :
    (∀ (fs : List String) (project_id : String),
      matchProjectRootForm ("projects/" ++ project_id ++ "/") = false →
      delete_all_project_files_permanently fs project_id =
        (fs, some .suspiciousDeletion)) ∧
    (∀ (fs : List String) (project_id package_id : String),
      matchPackageForm ("projects/" ++ project_id ++ "/packages/" ++ package_id ++ "/") =
        false →
      delete_stored_package fs project_id package_id =
        (fs, some .suspiciousDeletion)) ∧
    (∀ (fs : List String) (file : S3ObjectWithVersions),
      matchProjectFileKey file.latest.key = false →
      delete_project_file_permanently fs (some file) =
        (fs, some .suspiciousDeletion)) ∧
    (∀ (file? : Option S3ObjectWithVersions) (version_id : Nat) (include_older : Bool),
      ∀ v ∈ (delete_project_file_version_permanently file? version_id include_older).1,
        matchProjectFileKey v.key = true ∧ v.version_id ≠ 0) ∧
    (∀ (keep_count : Nat) (file : S3ObjectWithVersions),
      ∀ v ∈ (purge_old_file_versions_file keep_count file).1,
        (v.key == "") = false ∧ matchProjectFileKey v.key = true) := by
  refine ⟨?_, ?_, ?_, ?_, ?_⟩
  · intro fs project_id h
    unfold delete_all_project_files_permanently
    simp [h]
  · intro fs project_id package_id h
    unfold delete_stored_package
    simp [h]
  · intro fs file h
    unfold delete_project_file_permanently
    simp [h]
  · intro file? version_id include_older v hv
    unfold delete_project_file_version_permanently at hv
    split at hv
    · exact absurd hv (by simp)
    · split at hv
      · split at hv
        · exact absurd hv (by simp)
        · split at hv
          · exact absurd hv (by simp)
          · exact execVersionDeletions_deleted_ok _ [] (by intro v h; cases h) v hv
      · split at hv
        · exact absurd hv (by simp)
        · exact execVersionDeletions_deleted_ok _ [] (by intro v h; cases h) v hv
  · intro keep_count file v hv
    exact purgeLoop_deleted_keys_ok _ [] (by intro v h; cases h) v hv

/-- Witness for the amended C8 at concrete inputs: a malformed project id,
package id and file key are each rejected with no deletion, and a concretely
deleted version in the multi-version operations carries a valid key. -/
theorem deletion_shape_guards_witness :
    delete_all_project_files_permanently ["projects/p1/files/a"] "not-a-uuid" =
      (["projects/p1/files/a"], some .suspiciousDeletion) ∧
    delete_stored_package ["projects/p1/packages/x/f"] "not-a-uuid" "x" =
      (["projects/p1/packages/x/f"], some .suspiciousDeletion) ∧
    delete_project_file_permanently ["k"]
      (some ⟨⟨"bad-key", 1, 10, true⟩, [⟨"bad-key", 1, 10, true⟩]⟩) =
      (["k"], some .suspiciousDeletion) ∧
    (matchProjectFileKey
      (⟨"projects/abcd1234-ab12-cd34-ef56-abcdef123456/files/a.qgs", 2, 20, false⟩ :
        S3ObjectVersion).key = true ∧
      (⟨"projects/abcd1234-ab12-cd34-ef56-abcdef123456/files/a.qgs", 2, 20, false⟩ :
        S3ObjectVersion).version_id ≠ 0) ∧
    ((⟨"projects/abcd1234-ab12-cd34-ef56-abcdef123456/files/a.qgs", 1, 10, false⟩ :
        S3ObjectVersion).key == "") = false :=
  ⟨deletion_shape_guards.1 ["projects/p1/files/a"] "not-a-uuid" (by decide),
   deletion_shape_guards.2.1 ["projects/p1/packages/x/f"] "not-a-uuid" "x" (by decide),
   deletion_shape_guards.2.2.1 ["k"]
     ⟨⟨"bad-key", 1, 10, true⟩, [⟨"bad-key", 1, 10, true⟩]⟩ (by decide),
   deletion_shape_guards.2.2.2.1
     (some ⟨⟨"projects/abcd1234-ab12-cd34-ef56-abcdef123456/files/a.qgs", 3, 30, true⟩,
       [⟨"projects/abcd1234-ab12-cd34-ef56-abcdef123456/files/a.qgs", 3, 30, true⟩,
        ⟨"projects/abcd1234-ab12-cd34-ef56-abcdef123456/files/a.qgs", 2, 20, false⟩]⟩)
     2 false _ (by decide),
   (deletion_shape_guards.2.2.2.2 1
     ⟨⟨"projects/abcd1234-ab12-cd34-ef56-abcdef123456/files/a.qgs", 2, 20, true⟩,
       [⟨"projects/abcd1234-ab12-cd34-ef56-abcdef123456/files/a.qgs", 2, 20, true⟩,
        ⟨"projects/abcd1234-ab12-cd34-ef56-abcdef123456/files/a.qgs", 1, 10, false⟩]⟩
     ⟨"projects/abcd1234-ab12-cd34-ef56-abcdef123456/files/a.qgs", 1, 10, false⟩
     (by decide)).1⟩

/-! ## C7: `safe_join` (`utils.py`)

`safe_join` composes S3 keys with `posixpath.join` / `posixpath.normpath`
and raises `ValueError` when the running path stops extending the base.
The two CPython helpers are embedded verbatim over character lists. -/

/-- `str.rstrip("/")`. -/
def rstripSlash (cs : List Char) : List Char :=
  (cs.reverse.dropWhile (fun c => c == '/')).reverse

/-- `str.lstrip("/")`. -/
def lstripSlash (cs : List Char) : List Char :=
  cs.dropWhile (fun c => c == '/')

/-- `posixpath.join(a, b)` for one extra segment: an absolute segment
replaces the path, otherwise it is appended with a separator unless the path
is empty or already ends in one. -/
def posixJoin (a b : List Char) : List Char :=
  if b.head? = some '/' then b
  else if a = [] ∨ a.getLast? = some '/' then a ++ b
  else a ++ '/' :: b

/-- `posixpath.normpath`: empty path becomes `"."`; one or two initial
slashes are preserved (three or more collapse to one); components `""` and
`"."` are dropped; `".."` pops the previous component unless there is none
at a relative root or the previous component is itself an unresolved
`".."`. -/
def normpath (p : List Char) : List Char :=
  if p = [] then ['.']
  else
    let slashes : Nat :=
      if p.head? ≠ some '/' then 0
      else if List.isPrefixOf ['/', '/'] p ∧ ¬ List.isPrefixOf ['/', '/', '/'] p then 2
      else 1
    let comps := splitSlash p
    let newComps := comps.foldl
      (fun acc comp =>
        if comp = [] ∨ comp = ['.'] then acc
        else if comp ≠ ['.', '.'] ∨ (slashes = 0 ∧ acc = []) ∨
            (acc ≠ [] ∧ acc.getLast? = some ['.', '.']) then acc ++ [comp]
        else if acc ≠ [] then acc.dropLast
        else acc)
      ([] : List (List Char))
    let path := List.replicate slashes '/' ++ List.intercalate ['/'] newComps
    if path = [] then ['.'] else path

/-- `utils.safe_join`: strip trailing slashes from the base, join and
normalize each segment in turn (restoring a trailing slash that
normalization stripped), and fail with `ValueError` unless the final path
starts with the base followed by a `'/'`.  On success the returned path has
leading slashes stripped. -/
def safe_join (base : String) (paths : List String) : Except StorageError String :=
  let base_path := rstripSlash base.data
  let final_path0 := base_path ++ ['/']
  let final_path := paths.foldl
    (fun final p =>
      let f := normpath (posixJoin final p.data)
      if p.data.getLast? = some '/' ∨ f ++ ['/'] = final then f ++ ['/'] else f)
    final_path0
  let final_path := if final_path = base_path then final_path ++ ['/'] else final_path
  if ¬ List.isPrefixOf base_path final_path ∨ final_path[base_path.length]? ≠ some '/' then
    .error .pathEscape
  else
    .ok (String.mk (lstripSlash final_path))

/-- C7 counterexample: the claim's examples do not hold for every base.
With the absolute base `"/tmp"`, `join(base, "a", "b")` succeeds but returns
`"tmp/a/b"` (leading slash stripped), not `base ++ "/a/b"`; and with base
`"etc"`, `join(base, "a", "../../etc/passwd")` resolves to `"etc/passwd"`,
which lies inside the base, so no `PathEscapeError` is raised. -/
theorem safe_join_counterexample :
    safe_join "/tmp" ["a", "b"] = .ok "tmp/a/b" ∧
    ("tmp/a/b" ≠ "/tmp" ++ "/a/b") ∧
    safe_join "etc" ["a", "../../etc/passwd"] = .ok "etc/passwd" := by
  refine ⟨rfl, by decide, rfl⟩

/-- C7 amended.  `safe_join` fails with `ValueError` exactly when the
normalized final path does not extend `base.rstrip("/")` with a `'/'`
separator; for the normalized relative bases this system composes
(e.g. `"projects/abc123"`), `join(base, "a", "../../etc/passwd")` fails
with the path-escape error, `join(base, "a", "b")` returns
`base ++ "/a/b"`, and traversal that stays inside the base is normalized
and accepted.  The claim's quantification over every base fails (see the
counterexample): absolute bases return a path with leading slashes
stripped, and a base whose tail the traversal re-enters accepts it. -/
theorem safe_join_base_behaviour :
    safe_join "projects/abc123" ["a", "../../etc/passwd"] = .error .pathEscape ∧
    safe_join "projects/abc123" ["a", "b"] = .ok ("projects/abc123" ++ "/a/b") ∧
    safe_join "projects/abc123" ["a/../b"] = .ok "projects/abc123/b" := by
  refine ⟨rfl, rfl, rfl⟩

end QfcStorage
